import Mathlib

/-!
Verification development for the PyTorch PT2E quantization fusion pass
(`torch/ao/quantization/_pt2e/qat_utils.py`) and its pipeline glue
(`torch/ao/quantization/_quantize_pt2e.py`).

We shallowly embed the FX-graph data that the fusion post-processing
manipulates (nodes with a target, positional arguments and a metadata
mapping), the match-filter predicates, the post-processing of
`_fuse_conv_bn_qat`, the three traceable pattern functions, and the
straight-line body of `prepare_pt2e`, and prove the specified properties.
-/

/-- Operation identifier of an FX node (`node.target` in the source).
`convolution` stands for `torch.ops.aten.convolution.default`,
`nativeBatchNorm` for `torch.ops.aten._native_batch_norm_legit.default`,
`getitem` for `operator.getitem`; every other target is `other s`. -/
inductive Tgt where
  | convolution
  | nativeBatchNorm
  | getitem
  | other (s : String)
deriving DecidableEq, Repr

/-- One positional argument of an FX node: either a reference to another
node, a literal (int, int list or bool), or Python `None`. The node
referenced by `node` is stored inline, so following first arguments is
structural descent. -/
inductive ArgF (ν : Type) where
  | node (n : ν)
  | litInt (i : Int)
  | litIntList (l : List Int)
  | litBool (b : Bool)
  | noneA
deriving DecidableEq, Repr

/-- An FX node: name, target, tuple of positional arguments, and the
metadata mapping `node.meta` (modelled by content as an association
list). -/
inductive Nd where
  | mk (name : String) (target : Tgt) (args : List (ArgF Nd)) (meta : List (String × String))

/-- The target of a node. -/
def Nd.target : Nd → Tgt
  | .mk _ t _ _ => t

/-- The positional arguments of a node. -/
def Nd.args : Nd → List (ArgF Nd)
  | .mk _ _ a _ => a

/-- The metadata mapping of a node. -/
def Nd.meta : Nd → List (String × String)
  | .mk _ _ _ m => m

/-- The name of a node. -/
def Nd.name : Nd → String
  | .mk s _ _ _ => s

/-- Replace the metadata mapping of a node (Python `n.meta = ...`). -/
def Nd.withMeta : Nd → List (String × String) → Nd
  | .mk s t a _, m => .mk s t a m

/-- Replace the argument tuple of a node (Python `n.args = ...`). -/
def Nd.withArgs : Nd → List (ArgF Nd) → Nd
  | .mk s t _ m, a => .mk s t a m

/-- The first-argument chain starting at a node: the node itself, followed
by the chain of its first argument as long as that argument is a node.
This is exactly the sequence of nodes the backward walk of
`_fuse_conv_bn_qat` visits. -/
def chain : Nd → List Nd
  | .mk s t (ArgF.node m :: rest) md => .mk s t (ArgF.node m :: rest) md :: chain m
  | n => [n]

/-- Errors raised by the embedded code. `noConvNode` is the
`ValueError("Could not find conv node in matched conv + bn pattern")` of
`_has_conv_bias_filter`; `attributeError` is Python's `AttributeError`
from reading `.target` on `None`; `indexError` is Python's `IndexError`
from indexing a too-short argument tuple; the `assert*` constructors are
the three `assert` statements in the post-processing of
`_fuse_conv_bn_qat`. -/
inductive Err where
  | noConvNode
  | attributeError
  | indexError
  | assertOneReplacement
  | assertGetitem
  | assertNodeArg
deriving DecidableEq, Repr

/-- The backward walk of `_fuse_conv_bn_qat` (the `while` loop at its
post-processing step): starting from the anchor node, repeatedly record
the current node if its target is the convolution or batch-norm
primitive, then demand that its first argument is a node
(`assert isinstance(n.args[0], Node)`) and step to it; stop as soon as
both records are filled. An empty argument tuple is Python's
`IndexError`; a non-node first argument is the assertion failure. -/
def findConvBn : Option Nd → Option Nd → Nd → Except Err (Nd × Nd)
  | some c, some b, _ => .ok (c, b)
  | conv?, bn?, .mk s t args md =>
    let n := Nd.mk s t args md
    let conv?2 := if t = Tgt.convolution then some n else conv?
    let bn?2 := if t = Tgt.nativeBatchNorm then some n else bn?
    match args with
    | ArgF.node m :: _ => findConvBn conv?2 bn?2 m
    | [] => .error .indexError
    | _ :: _ => .error .assertNodeArg

/-- Does this argument stand for Python `None`? `a.isNoneArg = false`
embeds the Python test `a is not None` being true. -/
def ArgF.isNoneArg : ArgF ν → Bool
  | .noneA => true
  | _ => false

/-- The filter `_has_conv_bias_filter`: walk the `nodes_map` entries in
order; at the first entry whose node's target is the convolution
primitive, return whether its third positional argument (`n.args[2]`)
is not `None`; if no entry has the convolution target, raise
`ValueError("Could not find conv node in matched conv + bn pattern")`.
Reading `.target` of a `None` entry is Python's `AttributeError`, and a
convolution node with fewer than three arguments gives `IndexError`. -/
def hasConvBiasFilter : List (String × Option Nd) → Except Err Bool
  | [] => .error .noConvNode
  | (_, none) :: _ => .error .attributeError
  | (_, some n) :: rest =>
    if n.target = Tgt.convolution then
      match n.args.get? 2 with
      | some a => .ok (!a.isNoneArg)
      | none => .error .indexError
    else hasConvBiasFilter rest

/-- The filter `_no_conv_bias_filter`: `not _has_conv_bias_filter(...)`;
an exception raised by the inner filter propagates unchanged. -/
def noConvBiasFilter (l : List (String × Option Nd)) : Except Err Bool :=
  match hasConvBiasFilter l with
  | .ok b => .ok (!b)
  | .error e => .error e

/-- One iteration of the metadata/argument copy loop of
`_fuse_conv_bn_qat` post-processing, threading the current values of
`(replacement_conv_node, replacement_bn_node, replacement_getitem_node)`:
a pair whose original node is `None` is skipped; a convolution original
copies its metadata onto the replacement convolution node and overwrites
that node's arguments from position 3 on with its own
(`replacement_conv_node.args[:3] + original_node.args[3:]`); a
batch-norm original copies its metadata onto the replacement batch-norm
node; a `getitem` original copies its metadata onto the replacement
anchor node. -/
def copyStep (st : Nd × Nd × Nd) (pr : String × Option Nd) : Nd × Nd × Nd :=
  match pr.2 with
  | none => st
  | some o =>
    let c := st.1
    let b := st.2.1
    let g := st.2.2
    let c :=
      if o.target = Tgt.convolution then
        (c.withMeta o.meta).withArgs (c.args.take 3 ++ o.args.drop 3)
      else c
    let b := if o.target = Tgt.nativeBatchNorm then b.withMeta o.meta else b
    let g := if o.target = Tgt.getitem then g.withMeta o.meta else g
    (c, b, g)

/-- The full metadata/argument copy loop
(`for match_pattern_node, original_node in r.nodes_map.items(): ...`). -/
def copyMetaArgs (pairs : List (String × Option Nd)) (c b g : Nd) :
    Nd × Nd × Nd :=
  pairs.foldl copyStep (c, b, g)

/-- One `ReplacedPatterns` record as consumed by the post-processing of
`_fuse_conv_bn_qat`: the list of newly inserted top-level replacement
nodes (`r.replacements`) and the match's `nodes_map`. -/
structure ReplacementResult where
  replacements : List Nd
  nodesMap : List (String × Option Nd)

/-- Post-processing of one replacement result in `_fuse_conv_bn_qat`:
assert there is exactly one replacement node; assert its target is
`operator.getitem`; walk backward from it to find the replacement
convolution and batch-norm nodes; then run the metadata/argument copy
loop. Returns the final values of the replacement convolution,
batch-norm and anchor nodes. -/
def postProcessOne (r : ReplacementResult) : Except Err (Nd × Nd × Nd) :=
  match r.replacements with
  | [gi] =>
    if gi.target = Tgt.getitem then
      match findConvBn none none gi with
      | .ok (c, b) => .ok (copyMetaArgs r.nodesMap c b gi)
      | .error e => .error e
    else .error .assertGetitem
  | _ => .error .assertOneReplacement

/-- Is this pair a non-`None` original node with the given target? -/
def pairHasTarget (t : Tgt) (pr : String × Option Nd) : Bool :=
  match pr.2 with
  | some n => decide (n.target = t)
  | none => false

/-- No pair in the list has an original node with the given target. -/
def noTargetPair (t : Tgt) (l : List (String × Option Nd)) : Bool :=
  l.all fun pr => !pairHasTarget t pr

/-- Symbolic tensor expression: the tensor operations appearing in the
three pattern functions of `qat_utils.py`. `noneT` stands for a Python
`None` passed in a tensor position (the bias of `F.conv2d`);
`batchNorm x rm rv w b training eps` is
`F.batch_norm(x, rm, rv, w, b, training=training, eps=eps)` with
`eps = none` meaning the library default was not overridden. -/
inductive TExpr where
  | var (s : String)
  | lit (q : ℚ)
  | noneT
  | add (a b : TExpr)
  | mul (a b : TExpr)
  | div (a b : TExpr)
  | sqrt (a : TExpr)
  | reshape (a : TExpr) (shape : List Int)
  | zerosLike (a dtypeOf : TExpr)
  | conv2d (x w b : TExpr)
  | batchNorm (x rm rv w b : TExpr) (training : Bool) (eps : Option ℚ)
deriving DecidableEq, Repr

/-- Does the variable named `s` occur anywhere in the expression? -/
def TExpr.usesVar (s : String) : TExpr → Bool
  | .var t => s = t
  | .lit _ => false
  | .noneT => false
  | .add a b => a.usesVar s || b.usesVar s
  | .mul a b => a.usesVar s || b.usesVar s
  | .div a b => a.usesVar s || b.usesVar s
  | .sqrt a => a.usesVar s
  | .reshape a _ => a.usesVar s
  | .zerosLike a d => a.usesVar s || d.usesVar s
  | .conv2d x w b => x.usesVar s || w.usesVar s || b.usesVar s
  | .batchNorm x rm rv w b _ _ =>
    x.usesVar s || rm.usesVar s || rv.usesVar s || w.usesVar s || b.usesVar s

/-- The fixed epsilon `bn_eps = 1e-5` of the fused patterns. -/
def bnEps : ℚ := 1 / 100000

/-- The unfused pattern `_conv2d_bn_pattern`:
`F.conv2d(x, conv_weight, conv_bias)` followed by
`F.batch_norm(x, bn_running_mean, bn_running_var, bn_weight, bn_bias,
training=True)`. -/
def conv2dBnPattern (x conv_weight conv_bias bn_weight bn_bias
    bn_running_mean bn_running_var : TExpr) : TExpr :=
  let x1 := TExpr.conv2d x conv_weight conv_bias
  TExpr.batchNorm x1 bn_running_mean bn_running_var bn_weight bn_bias true none

/-- The fused pattern `_fused_qat_conv2d_bn_pattern`. `rank` is
`len(conv_weight.shape)`; the two shape lists are `[1]*rank` with entry 0
(resp. 1) set to `-1`, exactly as computed in the source. -/
def fusedQatConv2dBnPattern (rank : Nat) (x conv_weight conv_bias bn_weight
    bn_bias bn_running_mean bn_running_var : TExpr) : TExpr :=
  let running_std := TExpr.sqrt (.add bn_running_var (.lit bnEps))
  let scale_factor := TExpr.div bn_weight running_std
  let weight_shape := (List.replicate rank (1 : Int)).set 0 (-1)
  let bias_shape := (List.replicate rank (1 : Int)).set 1 (-1)
  let scaled_weight := TExpr.mul conv_weight (.reshape scale_factor weight_shape)
  let zero_bias := TExpr.zerosLike conv_bias x
  let x1 := TExpr.conv2d x scaled_weight zero_bias
  let x2 := TExpr.div x1 (.reshape scale_factor bias_shape)
  let x3 := TExpr.add x2 (.reshape conv_bias bias_shape)
  TExpr.batchNorm x3 bn_running_mean bn_running_var bn_weight bn_bias true
    (some bnEps)

/-- The fused pattern `_fused_qat_conv2d_bn_pattern_no_conv_bias`: same
shape computations, but the convolution is called with `None` bias and
there is no bias-add step; the `conv_bias` parameter is accepted only for
matching convenience. -/
def fusedQatConv2dBnPatternNoConvBias (rank : Nat) (x conv_weight conv_bias
    bn_weight bn_bias bn_running_mean bn_running_var : TExpr) : TExpr :=
  let running_std := TExpr.sqrt (.add bn_running_var (.lit bnEps))
  let scale_factor := TExpr.div bn_weight running_std
  let weight_shape := (List.replicate rank (1 : Int)).set 0 (-1)
  let bias_shape := (List.replicate rank (1 : Int)).set 1 (-1)
  let scaled_weight := TExpr.mul conv_weight (.reshape scale_factor weight_shape)
  let x1 := TExpr.conv2d x scaled_weight .noneT
  let x2 := TExpr.div x1 (.reshape scale_factor bias_shape)
  TExpr.batchNorm x2 bn_running_mean bn_running_var bn_weight bn_bias true
    (some bnEps)

/-- One entry of a node's `nn_module_stack` metadata value: the qualified
path of an enclosing module and the name of its type. -/
structure StackEntry where
  path : String
  modType : String
deriving DecidableEq, Repr

/-- A node of the host graph as seen by `prepare_pt2e`: its name and its
`n.meta.get("nn_module_stack", None)` entry, `none` when the key is
absent; the list holds the values of the stack dictionary in order. -/
structure PNode where
  name : String
  nnModuleStack : Option (List StackEntry)
deriving DecidableEq, Repr

/-- The scope computed for one node by `prepare_pt2e`: start from
`("", type(None))`; if the `nn_module_stack` entry is present and
non-empty (Python truthiness), take its last entry `bt` and record
`(bt[0].split(".")[-1], bt[1])`. `type(None)` is rendered as
`"NoneType"`. -/
def currentScope (n : PNode) : String × String :=
  match n.nnModuleStack with
  | some (e :: es) =>
    let bt := (e :: es).getLastD e
    ((bt.path.splitOn ".").getLastD "", bt.modType)
  | _ => ("", "NoneType")

/-- The `node_name_to_scope` dictionary built by the loop at the top of
`prepare_pt2e`, as an insertion-ordered association list (a later
assignment to the same key shadows an earlier one, see `dictGet`). -/
def nodeNameToScope (nodes : List PNode) : List (String × (String × String)) :=
  nodes.foldl (fun m n => m ++ [(n.name, currentScope n)]) []

/-- Lookup in an insertion-ordered association list with Python `dict`
semantics: the last assignment to a key wins. -/
def dictGet (l : List (String × α)) (k : String) : Option α :=
  match l with
  | [] => none
  | p :: rest =>
    match dictGet rest k with
    | some v => some v
    | none => if p.1 = k then some p.2 else none

/-- Concrete host-graph node carrying a module stack, used by witnesses. -/
def pn1 : PNode := ⟨"conv1", some [⟨"root.sub.conv", "Conv2d"⟩]⟩

/-- Concrete host-graph node without a module stack, used by witnesses. -/
def pn2 : PNode := ⟨"x", none⟩

/-- The stages `prepare_pt2e` can run, named after the functions of the
repository: `buildScopeMap` is the `node_name_to_scope` loop;
`fuseConvBn` is `_fuse_conv_bn_` from `_pt2e/utils.py`; `fuseConvBnQat`
is `_fuse_conv_bn_qat` from `_pt2e/qat_utils.py`; `prepareFx b` is
`prepare(..., b, ...)` from `.fx` with `b` the `is_qat` argument;
`rearrangeWeightObserver` is
`_rearrange_weight_observer_for_decomposed_linear`. -/
inductive Stage where
  | buildScopeMap
  | fuseConvBn
  | fuseConvBnQat
  | prepareFx (isQat : Bool)
  | rearrangeWeightObserver
deriving DecidableEq, Repr

/-- The sequence of stages the straight-line body of `prepare_pt2e` runs,
in order, for any model, qconfig mapping, example inputs and backend
config: the scope-map loop, then `_fuse_conv_bn_(model)`, then
`prepare(model, qconfig_mapping, False, node_name_to_scope,
example_inputs, backend_config=backend_config)`, then
`_rearrange_weight_observer_for_decomposed_linear(model)`. -/
def preparePt2eStages {Q E B : Type} (model : List PNode) (qconfig_mapping : Q)
    (example_inputs : E) (backend_config : B) : List Stage :=
  [.buildScopeMap, .fuseConvBn, .prepareFx false, .rearrangeWeightObserver]

/-- Concrete input placeholder node used by witnesses. -/
def xW : Nd := .mk "x" (.other "placeholder") [] []

/-- Concrete replacement convolution node used by witnesses: its first
argument is the input node, its third is a `None` bias, and trailing
structural arguments follow. -/
def convW : Nd :=
  .mk "conv_default" .convolution
    [.node xW, .litInt 0, .noneA, .litIntList [1, 1], .litIntList [0, 0]]
    [("meta_key", "replacement")]

/-- Concrete replacement batch-norm node used by witnesses. -/
def bnW : Nd :=
  .mk "bn_default" .nativeBatchNorm [.node convW] [("meta_key", "replacementbn")]

/-- Concrete replacement anchor (`getitem`) node used by witnesses. -/
def giW : Nd := .mk "getitem_default" .getitem [.node bnW] []

/-- Concrete matched original convolution node used by witnesses, with
nine positional arguments
`(x, weight, bias, stride, padding, dilation, transposed, output_padding, groups)`. -/
def origConvW : Nd :=
  .mk "conv_orig" .convolution
    [.litInt 0, .litInt 1, .litInt 2, .litIntList [2, 2], .litIntList [3, 3],
      .litIntList [1, 1], .litBool false, .litIntList [0, 0], .litInt 1]
    [("stack_trace", "orig_conv")]

/-- Concrete matched original convolution node without bias, used by
witnesses: its third positional argument is `None`, as in a host graph
whose convolution was called without a bias. -/
def origConvNoBiasW : Nd :=
  .mk "conv_orig_nobias" .convolution
    [.litInt 0, .litInt 1, .noneA, .litIntList [1, 1]]
    [("stack_trace", "orig_conv_nobias")]

/-- Concrete matched original batch-norm node used by witnesses. -/
def origBnW : Nd :=
  .mk "bn_orig" .nativeBatchNorm [.litInt 0] [("stack_trace", "orig_bn")]

/-- Concrete matched original anchor node used by witnesses. -/
def origGiW : Nd :=
  .mk "getitem_orig" .getitem [.litInt 0] [("stack_trace", "orig_gi")]

/-- Concrete convolution node whose first argument is a literal, not a
node; it ends a first-argument chain. -/
def convBad : Nd := .mk "conv_bad" .convolution [.litInt 0] []

/-- Concrete batch-norm node sitting above `convBad`. -/
def bnBad : Nd := .mk "bn_bad" .nativeBatchNorm [.node convBad] []

/-- Concrete anchor node whose backbone is `getitem → bn → conv` with the
convolution last in the chain. -/
def giBad : Nd := .mk "getitem_bad" .getitem [.node bnBad] []

/-- Concrete anchor node whose backbone contains no batch-norm node. -/
def giNoBn : Nd := .mk "getitem_nobn" .getitem [.node convBad] []

/-- C10: for every model, qconfig mapping, example inputs and backend
configuration, the `is_qat` flag `prepare_pt2e` passes to the `prepare`
stage is `False`. -/
theorem prepare_pt2e_is_qat_false {Q E B : Type} (model : List PNode)
    (qconfig_mapping : Q) (example_inputs : E) (backend_config : B) (b : Bool)
    (h : Stage.prepareFx b ∈
      preparePt2eStages model qconfig_mapping example_inputs backend_config) :
    b = false := by
  simp [preparePt2eStages] at h
  exact h

theorem prepare_pt2e_is_qat_false_witness : false = false :=
  prepare_pt2e_is_qat_false ([] : List PNode) (0 : Nat) (0 : Nat) (0 : Nat)
    false (by simp [preparePt2eStages])

/-- C3 counterexample: `prepare_pt2e` never invokes the QAT fusion pass
`_fuse_conv_bn_qat`; in particular it is not invoked before the
`prepare` stage. -/
theorem prepare_pt2e_no_qat_fusion :
    Stage.fuseConvBnQat ∉ preparePt2eStages ([] : List PNode) (0 : Nat) (0 : Nat) (0 : Nat) := by
  decide

/-- C3 amended: for every model, qconfig mapping, example inputs and
backend configuration, `prepare_pt2e` invokes the conv-batchnorm fusion
pass `_fuse_conv_bn_` before the observer-insertion `prepare` stage, and
never invokes `_fuse_conv_bn_qat`. -/
theorem prepare_pt2e_fusion_before_prepare {Q E B : Type} (model : List PNode)
    (qconfig_mapping : Q) (example_inputs : E) (backend_config : B) :
    ∃ i j, i < j ∧
      (preparePt2eStages model qconfig_mapping example_inputs backend_config).get? i
        = some Stage.fuseConvBn ∧
      (preparePt2eStages model qconfig_mapping example_inputs backend_config).get? j
        = some (Stage.prepareFx false) ∧
      Stage.fuseConvBnQat ∉
        preparePt2eStages model qconfig_mapping example_inputs backend_config := by
  refine ⟨1, 2, by omega, rfl, rfl, ?_⟩
  intro h
  simp [preparePt2eStages] at h

/-- C8: the output of `_fused_qat_conv2d_bn_pattern_no_conv_bias` does not
depend on its `conv_bias` argument, and on fully symbolic inputs the
bias variable occurs nowhere in the produced expression. -/
theorem no_conv_bias_pattern_ignores_bias (rank : Nat)
    (x conv_weight conv_bias1 conv_bias2 bn_weight bn_bias bn_running_mean
      bn_running_var : TExpr) :
    fusedQatConv2dBnPatternNoConvBias rank x conv_weight conv_bias1 bn_weight
        bn_bias bn_running_mean bn_running_var =
      fusedQatConv2dBnPatternNoConvBias rank x conv_weight conv_bias2 bn_weight
        bn_bias bn_running_mean bn_running_var ∧
    (fusedQatConv2dBnPatternNoConvBias 4 (.var "x") (.var "w") (.var "b")
        (.var "bw") (.var "bb") (.var "rm") (.var "rv")).usesVar "b" = false :=
  ⟨rfl, by decide⟩

/-- C5: post-processing of a replacement result fails with the
corresponding assertion error whenever the list of newly inserted
replacement nodes does not have length one, or the single replacement
node's target is not `operator.getitem`. -/
theorem post_process_assertion_errors (r : ReplacementResult) :
    (r.replacements.length ≠ 1 →
      postProcessOne r = .error .assertOneReplacement) ∧
    (∀ gi, r.replacements = [gi] → gi.target ≠ Tgt.getitem →
      postProcessOne r = .error .assertGetitem) := by
  obtain ⟨reps, nm⟩ := r
  constructor
  · intro h
    match reps, h with
    | [], _ => rfl
    | a :: b :: l, _ => rfl
    | [a], h => simp at h
  · rintro gi rfl hgi
    simp only [postProcessOne]
    rw [if_neg hgi]

theorem post_process_assertion_errors_witness :
    postProcessOne ⟨[], []⟩ = .error .assertOneReplacement ∧
    postProcessOne ⟨[convW], []⟩ = .error .assertGetitem :=
  ⟨(post_process_assertion_errors ⟨[], []⟩).1 (by decide),
    (post_process_assertion_errors ⟨[convW], []⟩).2 convW rfl (by decide)⟩

/-- Helper: when every entry of the match mapping is present and none has
the convolution target, the filter raises
`Could not find conv node in matched conv + bn pattern`. -/
theorem hasConvBiasFilter_no_conv (l : List (String × Option Nd))
    (hsome : l.all (fun pr => pr.2.isSome) = true)
    (hnone : noTargetPair Tgt.convolution l = true) :
    hasConvBiasFilter l = .error .noConvNode := by
  induction l with
  | nil => rfl
  | cons p rest ih =>
    simp only [List.all_cons, Bool.and_eq_true] at hsome
    simp only [noTargetPair, List.all_cons, Bool.and_eq_true] at hnone
    obtain ⟨k0, o?⟩ := p
    cases o? with
    | none => simp at hsome
    | some o =>
      have ho : ¬o.target = Tgt.convolution := by
        have := hnone.1
        simp only [pairHasTarget, Bool.not_eq_eq_eq_not, Bool.not_true,
          decide_eq_false_iff_not] at this
        exact this
      simp only [hasConvBiasFilter]
      rw [if_neg ho]
      exact ih hsome.2 hnone.2

/-- Helper: the filter returns at the first convolution entry, reading its
third positional argument; entries after that point are never inspected,
so they may be absent (`None`), as the bias entry of a no-bias match is. -/
theorem hasConvBiasFilter_first_conv (l₁ l₂ : List (String × Option Nd))
    (k : String) (n : Nd)
    (hn : n.target = Tgt.convolution)
    (hsome₁ : l₁.all (fun pr => pr.2.isSome) = true)
    (hnoconv₁ : noTargetPair Tgt.convolution l₁ = true)
    (hlen : 3 ≤ n.args.length) :
    ∃ a, n.args.get? 2 = some a ∧
      hasConvBiasFilter (l₁ ++ (k, some n) :: l₂) = .ok (!a.isNoneArg) := by
  induction l₁ with
  | nil =>
    have hlt : 2 < n.args.length := by omega
    refine ⟨n.args.get ⟨2, hlt⟩, List.get?_eq_get hlt, ?_⟩
    simp only [List.nil_append, hasConvBiasFilter]
    rw [if_pos hn, List.get?_eq_get hlt]
  | cons p rest ih =>
    simp only [List.all_cons, Bool.and_eq_true] at hsome₁
    simp only [noTargetPair, List.all_cons, Bool.and_eq_true] at hnoconv₁
    obtain ⟨k0, o?⟩ := p
    cases o? with
    | none => simp at hsome₁
    | some o =>
      have ho : ¬o.target = Tgt.convolution := by
        have := hnoconv₁.1
        simp only [pairHasTarget, Bool.not_eq_eq_eq_not, Bool.not_true,
          decide_eq_false_iff_not] at this
        exact this
      obtain ⟨a, ha, hres⟩ := ih hsome₁.2 hnoconv₁.2
      refine ⟨a, ha, ?_⟩
      simp only [List.cons_append, hasConvBiasFilter]
      rw [if_neg ho]
      exact hres

/-- C6: `_has_conv_bias_filter` scans the match for a convolution entry.
On a match whose entries are all present and with no convolution entry,
it raises `Could not find conv node`. Whenever the first convolution
entry is a node `n` with at least three arguments and every entry before
it is present, it returns whether `n.args[2]` is not `None` — entries
after the convolution entry are never inspected, so a `None` bias entry
of a no-bias match is harmless there. -/
theorem has_conv_bias_filter_spec (l : List (String × Option Nd)) :
    (l.all (fun pr => pr.2.isSome) = true →
      noTargetPair Tgt.convolution l = true →
      hasConvBiasFilter l = .error .noConvNode) ∧
    (∀ k n l₁ l₂, l = l₁ ++ (k, some n) :: l₂ →
      n.target = Tgt.convolution →
      l₁.all (fun pr => pr.2.isSome) = true →
      noTargetPair Tgt.convolution l₁ = true →
      3 ≤ n.args.length →
      ∃ a, n.args.get? 2 = some a ∧
        hasConvBiasFilter l = .ok (!a.isNoneArg)) := by
  refine ⟨hasConvBiasFilter_no_conv l, ?_⟩
  rintro k n l₁ l₂ rfl hn hsome₁ hnoconv₁ hlen
  exact hasConvBiasFilter_first_conv l₁ l₂ k n hn hsome₁ hnoconv₁ hlen

theorem has_conv_bias_filter_spec_witness :
    hasConvBiasFilter [("p", some origBnW)] = .error .noConvNode ∧
    (∃ a, origConvW.args.get? 2 = some a ∧
      hasConvBiasFilter [("q", some origConvW)] = .ok (!a.isNoneArg)) ∧
    (∃ a, origConvNoBiasW.args.get? 2 = some a ∧
      hasConvBiasFilter [("pc", some origConvNoBiasW), ("pb", none)] =
        .ok (!a.isNoneArg)) :=
  ⟨(has_conv_bias_filter_spec [("p", some origBnW)]).1 (by rfl) (by rfl),
    (has_conv_bias_filter_spec [("q", some origConvW)]).2
      "q" origConvW [] [] rfl rfl rfl rfl (by decide),
    (has_conv_bias_filter_spec [("pc", some origConvNoBiasW), ("pb", none)]).2
      "pc" origConvNoBiasW [] [("pb", none)] rfl rfl rfl rfl (by decide)⟩

/-- Helper: when the inner filter returns a value, `_no_conv_bias_filter`
returns its boolean negation. -/
theorem noConvBiasFilter_ok_of (l : List (String × Option Nd)) (b : Bool)
    (h : hasConvBiasFilter l = .ok b) : noConvBiasFilter l = .ok (!b) := by
  simp [noConvBiasFilter, h]

/-- C4: on every match containing a convolution node — reached as the
first convolution entry, with the entries before it present — the two
filters return opposite booleans: exactly one of `_has_conv_bias_filter`
and `_no_conv_bias_filter` holds, so the bias pass and the no-bias pass
partition such matches disjointly. This covers no-bias matches, whose
`None` bias entry sits after the convolution entry and is never
inspected by the filters. -/
theorem filters_partition_matches (l : List (String × Option Nd))
    (k : String) (n : Nd) (l₁ l₂ : List (String × Option Nd))
    (hmap : l = l₁ ++ (k, some n) :: l₂)
    (hn : n.target = Tgt.convolution)
    (hsome₁ : l₁.all (fun pr => pr.2.isSome) = true)
    (hnoconv₁ : noTargetPair Tgt.convolution l₁ = true)
    (hlen : 3 ≤ n.args.length) :
    ∃ b, hasConvBiasFilter l = .ok b ∧ noConvBiasFilter l = .ok (!b) ∧
      b ≠ !b := by
  subst hmap
  obtain ⟨a, _, hres⟩ :=
    hasConvBiasFilter_first_conv l₁ l₂ k n hn hsome₁ hnoconv₁ hlen
  exact ⟨!a.isNoneArg, hres, noConvBiasFilter_ok_of _ _ hres,
    by cases a.isNoneArg <;> simp⟩

theorem filters_partition_matches_witness :
    (∃ b, hasConvBiasFilter [("q", some origConvW)] = .ok b ∧
      noConvBiasFilter [("q", some origConvW)] = .ok (!b) ∧ b ≠ !b) ∧
    (∃ b, hasConvBiasFilter [("pc", some origConvNoBiasW), ("pb", none)] =
        .ok b ∧
      noConvBiasFilter [("pc", some origConvNoBiasW), ("pb", none)] =
        .ok (!b) ∧ b ≠ !b) :=
  ⟨filters_partition_matches [("q", some origConvW)] "q" origConvW [] []
      rfl rfl rfl rfl (by decide),
    filters_partition_matches [("pc", some origConvNoBiasW), ("pb", none)]
      "pc" origConvNoBiasW [] [("pb", none)] rfl rfl rfl rfl (by decide)⟩

/-- Helper: a copy-loop step over a pair with no convolution original
leaves the replacement convolution node unchanged. -/
theorem copyStep_fst_of_not_conv (st : Nd × Nd × Nd) (pr : String × Option Nd)
    (h : pairHasTarget Tgt.convolution pr = false) :
    (copyStep st pr).1 = st.1 := by
  obtain ⟨k, o?⟩ := pr
  cases o? with
  | none => rfl
  | some o =>
    simp only [pairHasTarget, decide_eq_false_iff_not] at h
    simp only [copyStep]
    rw [if_neg h]

/-- Helper: the copy loop over pairs with no convolution original leaves
the replacement convolution node unchanged. -/
theorem copyLoop_fst_of_no_conv (l : List (String × Option Nd))
    (st : Nd × Nd × Nd) (h : noTargetPair Tgt.convolution l = true) :
    (l.foldl copyStep st).1 = st.1 := by
  induction l generalizing st with
  | nil => rfl
  | cons p rest ih =>
    simp only [noTargetPair, List.all_cons, Bool.and_eq_true] at h
    obtain ⟨hp, hrest⟩ := h
    rw [List.foldl_cons, ih (copyStep st p) hrest,
      copyStep_fst_of_not_conv st p (by simpa using hp)]

/-- Helper: a copy-loop step over a pair with no batch-norm original
leaves the replacement batch-norm node unchanged. -/
theorem copyStep_bn_of_not_bn (st : Nd × Nd × Nd) (pr : String × Option Nd)
    (h : pairHasTarget Tgt.nativeBatchNorm pr = false) :
    (copyStep st pr).2.1 = st.2.1 := by
  obtain ⟨k, o?⟩ := pr
  cases o? with
  | none => rfl
  | some o =>
    simp only [pairHasTarget, decide_eq_false_iff_not] at h
    simp only [copyStep]
    rw [if_neg h]

/-- Helper: the copy loop over pairs with no batch-norm original leaves
the replacement batch-norm node unchanged. -/
theorem copyLoop_bn_of_no_bn (l : List (String × Option Nd))
    (st : Nd × Nd × Nd) (h : noTargetPair Tgt.nativeBatchNorm l = true) :
    (l.foldl copyStep st).2.1 = st.2.1 := by
  induction l generalizing st with
  | nil => rfl
  | cons p rest ih =>
    simp only [noTargetPair, List.all_cons, Bool.and_eq_true] at h
    obtain ⟨hp, hrest⟩ := h
    rw [List.foldl_cons, ih (copyStep st p) hrest,
      copyStep_bn_of_not_bn st p (by simpa using hp)]

/-- Helper: a copy-loop step over a pair with no `getitem` original
leaves the replacement anchor node unchanged. -/
theorem copyStep_gi_of_not_gi (st : Nd × Nd × Nd) (pr : String × Option Nd)
    (h : pairHasTarget Tgt.getitem pr = false) :
    (copyStep st pr).2.2 = st.2.2 := by
  obtain ⟨k, o?⟩ := pr
  cases o? with
  | none => rfl
  | some o =>
    simp only [pairHasTarget, decide_eq_false_iff_not] at h
    simp only [copyStep]
    rw [if_neg h]

/-- Helper: the copy loop over pairs with no `getitem` original leaves
the replacement anchor node unchanged. -/
theorem copyLoop_gi_of_no_gi (l : List (String × Option Nd))
    (st : Nd × Nd × Nd) (h : noTargetPair Tgt.getitem l = true) :
    (l.foldl copyStep st).2.2 = st.2.2 := by
  induction l generalizing st with
  | nil => rfl
  | cons p rest ih =>
    simp only [noTargetPair, List.all_cons, Bool.and_eq_true] at h
    obtain ⟨hp, hrest⟩ := h
    rw [List.foldl_cons, ih (copyStep st p) hrest,
      copyStep_gi_of_not_gi st p (by simpa using hp)]

/-- Helper: the argument tuple after `withArgs`. -/
theorem Nd.args_withArgs (n : Nd) (a : List (ArgF Nd)) : (n.withArgs a).args = a := by
  cases n; rfl

/-- Helper: the metadata mapping after `withArgs`. -/
theorem Nd.meta_withArgs (n : Nd) (a : List (ArgF Nd)) :
    (n.withArgs a).meta = n.meta := by
  cases n; rfl

/-- Helper: the metadata mapping after `withMeta`. -/
theorem Nd.meta_withMeta (n : Nd) (m : List (String × String)) :
    (n.withMeta m).meta = m := by
  cases n; rfl

/-- Helper: the argument tuple after `withMeta`. -/
theorem Nd.args_withMeta (n : Nd) (m : List (String × String)) :
    (n.withMeta m).args = n.args := by
  cases n; rfl

/-- Helper: a copy-loop step at a convolution pair overwrites the
replacement convolution node's metadata and trailing arguments. -/
theorem copyStep_fst_of_conv (st : Nd × Nd × Nd) (k : String) (o : Nd)
    (hc : o.target = Tgt.convolution) :
    (copyStep st (k, some o)).1 =
      (st.1.withMeta o.meta).withArgs (st.1.args.take 3 ++ o.args.drop 3) := by
  simp only [copyStep]
  rw [if_pos hc]

/-- Helper: the conv component of the copy loop over a list with exactly
one convolution pair. -/
theorem copyLoop_fst_conv (l₁ l₂ : List (String × Option Nd)) (k : String)
    (o : Nd) (st : Nd × Nd × Nd)
    (h₁ : noTargetPair Tgt.convolution l₁ = true)
    (h₂ : noTargetPair Tgt.convolution l₂ = true)
    (hc : o.target = Tgt.convolution) :
    ((l₁ ++ (k, some o) :: l₂).foldl copyStep st).1 =
      (st.1.withMeta o.meta).withArgs (st.1.args.take 3 ++ o.args.drop 3) := by
  rw [List.foldl_append, List.foldl_cons,
    copyLoop_fst_of_no_conv l₂ _ h₂,
    copyStep_fst_of_conv _ k o hc,
    copyLoop_fst_of_no_conv l₁ st h₁]

/-- Helper: a copy-loop step at a batch-norm pair overwrites the
replacement batch-norm node's metadata. -/
theorem copyStep_bn_of_bn (st : Nd × Nd × Nd) (k : String) (o : Nd)
    (hb : o.target = Tgt.nativeBatchNorm) :
    (copyStep st (k, some o)).2.1 = st.2.1.withMeta o.meta := by
  simp only [copyStep]
  rw [if_pos hb]

/-- Helper: the batch-norm component of the copy loop over a list with
exactly one batch-norm pair. -/
theorem copyLoop_bn_meta (l₁ l₂ : List (String × Option Nd)) (k : String)
    (o : Nd) (st : Nd × Nd × Nd)
    (h₁ : noTargetPair Tgt.nativeBatchNorm l₁ = true)
    (h₂ : noTargetPair Tgt.nativeBatchNorm l₂ = true)
    (hb : o.target = Tgt.nativeBatchNorm) :
    ((l₁ ++ (k, some o) :: l₂).foldl copyStep st).2.1 =
      st.2.1.withMeta o.meta := by
  rw [List.foldl_append, List.foldl_cons,
    copyLoop_bn_of_no_bn l₂ _ h₂,
    copyStep_bn_of_bn _ k o hb,
    copyLoop_bn_of_no_bn l₁ st h₁]

/-- Helper: a copy-loop step at a `getitem` pair overwrites the
replacement anchor node's metadata. -/
theorem copyStep_gi_of_gi (st : Nd × Nd × Nd) (k : String) (o : Nd)
    (hg : o.target = Tgt.getitem) :
    (copyStep st (k, some o)).2.2 = st.2.2.withMeta o.meta := by
  simp only [copyStep]
  rw [if_pos hg]

/-- Helper: the anchor component of the copy loop over a list with
exactly one `getitem` pair. -/
theorem copyLoop_gi_meta (l₁ l₂ : List (String × Option Nd)) (k : String)
    (o : Nd) (st : Nd × Nd × Nd)
    (h₁ : noTargetPair Tgt.getitem l₁ = true)
    (h₂ : noTargetPair Tgt.getitem l₂ = true)
    (hg : o.target = Tgt.getitem) :
    ((l₁ ++ (k, some o) :: l₂).foldl copyStep st).2.2 =
      st.2.2.withMeta o.meta := by
  rw [List.foldl_append, List.foldl_cons,
    copyLoop_gi_of_no_gi l₂ _ h₂,
    copyStep_gi_of_gi _ k o hg,
    copyLoop_gi_of_no_gi l₁ st h₁]

/-- Helper: the value post-processing returns when its assertions and the
backward walk succeed. -/
theorem postProcessOne_ok (gi c b : Nd) (nm : List (String × Option Nd))
    (hgi : gi.target = Tgt.getitem)
    (hwalk : findConvBn none none gi = .ok (c, b)) :
    postProcessOne ⟨[gi], nm⟩ = .ok (copyMetaArgs nm c b gi) := by
  simp only [postProcessOne]
  rw [if_pos hgi, hwalk]

/-- C1: when post-processing a replacement result whose match contains
exactly one convolution original `o`, the replacement convolution node's
argument tuple becomes its own first three arguments (input, weight,
bias) followed by the original's arguments from position 3 on; the
leading three slots are preserved and the trailing segment equals the
original's exactly. -/
theorem fused_conv_args_spliced (r : ReplacementResult) (gi c b o : Nd)
    (k : String) (l₁ l₂ : List (String × Option Nd))
    (hrep : r.replacements = [gi]) (hgi : gi.target = Tgt.getitem)
    (hwalk : findConvBn none none gi = .ok (c, b))
    (hmap : r.nodesMap = l₁ ++ (k, some o) :: l₂)
    (ho : o.target = Tgt.convolution)
    (h₁ : noTargetPair Tgt.convolution l₁ = true)
    (h₂ : noTargetPair Tgt.convolution l₂ = true)
    (hlen : 3 ≤ c.args.length) :
    ∃ c2 b2 g2, postProcessOne r = .ok (c2, b2, g2) ∧
      c2.args = c.args.take 3 ++ o.args.drop 3 ∧
      c2.args.take 3 = c.args.take 3 ∧
      c2.args.drop 3 = o.args.drop 3 := by
  obtain ⟨reps, nm⟩ := r
  simp only at hrep hmap
  subst hrep hmap
  rw [postProcessOne_ok gi c b _ hgi hwalk]
  have hfst := copyLoop_fst_conv l₁ l₂ k o (c, b, gi) h₁ h₂ ho
  have hA : (c.args.take 3).length = 3 := by
    rw [List.length_take]
    omega
  have htake : ∀ (A B : List (ArgF Nd)), A.length = 3 → (A ++ B).take 3 = A :=
    fun A B h => by rw [← h, List.take_left]
  have hdrop : ∀ (A B : List (ArgF Nd)), A.length = 3 → (A ++ B).drop 3 = B :=
    fun A B h => by rw [← h, List.drop_left]
  refine ⟨(copyMetaArgs (l₁ ++ (k, some o) :: l₂) c b gi).1,
    (copyMetaArgs (l₁ ++ (k, some o) :: l₂) c b gi).2.1,
    (copyMetaArgs (l₁ ++ (k, some o) :: l₂) c b gi).2.2, rfl, ?_, ?_, ?_⟩
  · rw [copyMetaArgs, hfst, Nd.args_withArgs]
  · rw [copyMetaArgs, hfst, Nd.args_withArgs, htake _ _ hA]
  · rw [copyMetaArgs, hfst, Nd.args_withArgs, hdrop _ _ hA]

theorem fused_conv_args_spliced_witness :
    ∃ c2 b2 g2,
      postProcessOne ⟨[giW], [("p", some origConvW)]⟩ = .ok (c2, b2, g2) ∧
      c2.args = convW.args.take 3 ++ origConvW.args.drop 3 ∧
      c2.args.take 3 = convW.args.take 3 ∧
      c2.args.drop 3 = origConvW.args.drop 3 :=
  fused_conv_args_spliced ⟨[giW], [("p", some origConvW)]⟩ giW convW bnW
    origConvW "p" [] [] rfl rfl rfl rfl rfl rfl rfl (by decide)

/-- C2: while post-processing a replacement result, pairs of the match
mapping whose original node is `None` are skipped without effect, and
whenever the mapping contains exactly one convolution (resp. batch-norm,
`getitem`) original, the final replacement convolution (resp. batch-norm,
anchor) node's metadata mapping equals that original's by content. -/
theorem replacement_metadata_copied (r : ReplacementResult) (gi c b : Nd)
    (hrep : r.replacements = [gi]) (hgi : gi.target = Tgt.getitem)
    (hwalk : findConvBn none none gi = .ok (c, b)) :
    ∃ c2 b2 g2, postProcessOne r = .ok (c2, b2, g2) ∧
      (∀ st k, copyStep st (k, none) = st) ∧
      (∀ k o l₁ l₂, r.nodesMap = l₁ ++ (k, some o) :: l₂ →
        o.target = Tgt.convolution →
        noTargetPair Tgt.convolution l₁ = true →
        noTargetPair Tgt.convolution l₂ = true →
        c2.meta = o.meta) ∧
      (∀ k o l₁ l₂, r.nodesMap = l₁ ++ (k, some o) :: l₂ →
        o.target = Tgt.nativeBatchNorm →
        noTargetPair Tgt.nativeBatchNorm l₁ = true →
        noTargetPair Tgt.nativeBatchNorm l₂ = true →
        b2.meta = o.meta) ∧
      (∀ k o l₁ l₂, r.nodesMap = l₁ ++ (k, some o) :: l₂ →
        o.target = Tgt.getitem →
        noTargetPair Tgt.getitem l₁ = true →
        noTargetPair Tgt.getitem l₂ = true →
        g2.meta = o.meta) := by
  obtain ⟨reps, nm⟩ := r
  simp only at hrep
  subst hrep
  rw [postProcessOne_ok gi c b _ hgi hwalk]
  refine ⟨(copyMetaArgs nm c b gi).1, (copyMetaArgs nm c b gi).2.1,
    (copyMetaArgs nm c b gi).2.2, rfl, fun st k => rfl, ?_, ?_, ?_⟩
  · rintro k o l₁ l₂ rfl ho h₁ h₂
    rw [copyMetaArgs, copyLoop_fst_conv l₁ l₂ k o (c, b, gi) h₁ h₂ ho,
      Nd.meta_withArgs, Nd.meta_withMeta]
  · rintro k o l₁ l₂ rfl ho h₁ h₂
    rw [copyMetaArgs, copyLoop_bn_meta l₁ l₂ k o (c, b, gi) h₁ h₂ ho,
      Nd.meta_withMeta]
  · rintro k o l₁ l₂ rfl ho h₁ h₂
    rw [copyMetaArgs, copyLoop_gi_meta l₁ l₂ k o (c, b, gi) h₁ h₂ ho,
      Nd.meta_withMeta]

/-- Helper: a first-argument chain is never empty. -/
theorem chain_ne_nil (n : Nd) : chain n ≠ [] := by
  induction n using chain.induct with
  | _ => rw [chain] <;> simp_all

/-- Helper: the backward walk succeeds when every still-missing target
occurs in the chain with its last element removed, and any already-found
node has the right target. -/
theorem findConvBn_ok_aux (conv? bn? : Option Nd) (n : Nd) :
    (∀ c, conv? = some c → c.target = Tgt.convolution) →
    (∀ b, bn? = some b → b.target = Tgt.nativeBatchNorm) →
    (conv? = none → ∃ x ∈ (chain n).dropLast, x.target = Tgt.convolution) →
    (bn? = none → ∃ x ∈ (chain n).dropLast, x.target = Tgt.nativeBatchNorm) →
    ∃ c b, findConvBn conv? bn? n = .ok (c, b) ∧
      c.target = Tgt.convolution ∧ b.target = Tgt.nativeBatchNorm := by
  induction conv?, bn?, n using findConvBn.induct with
  | case1 n c b =>
    intro hcs hbs _ _
    exact ⟨c, b, by rw [findConvBn], hcs c rfl, hbs b rfl⟩
  | case2 conv? bn? s t md hnb m tail n conv?2 bn?2 ih =>
    intro hcs hbs hc hb
    have hchain : chain (Nd.mk s t (ArgF.node m :: tail) md) =
        Nd.mk s t (ArgF.node m :: tail) md :: chain m := by
      rw [chain]
    have hdrop : (chain (Nd.mk s t (ArgF.node m :: tail) md)).dropLast =
        Nd.mk s t (ArgF.node m :: tail) md :: (chain m).dropLast := by
      rw [hchain]
      rcases hcm : chain m with _ | ⟨y, ys⟩
      · exact absurd hcm (chain_ne_nil m)
      · simp
    have hstep : findConvBn conv? bn? (Nd.mk s t (ArgF.node m :: tail) md) =
        findConvBn
          (if t = Tgt.convolution then some (Nd.mk s t (ArgF.node m :: tail) md)
            else conv?)
          (if t = Tgt.nativeBatchNorm then some (Nd.mk s t (ArgF.node m :: tail) md)
            else bn?) m := by
      rw [findConvBn]
      exact hnb
    rw [hstep]
    have h1 : ∀ c, (if t = Tgt.convolution
        then some (Nd.mk s t (ArgF.node m :: tail) md) else conv?) = some c →
        c.target = Tgt.convolution := by
      intro c hcc
      by_cases ht : t = Tgt.convolution
      · rw [if_pos ht] at hcc
        cases hcc
        exact ht
      · rw [if_neg ht] at hcc
        exact hcs c hcc
    have h2 : ∀ b, (if t = Tgt.nativeBatchNorm
        then some (Nd.mk s t (ArgF.node m :: tail) md) else bn?) = some b →
        b.target = Tgt.nativeBatchNorm := by
      intro b hbb
      by_cases ht : t = Tgt.nativeBatchNorm
      · rw [if_pos ht] at hbb
        cases hbb
        exact ht
      · rw [if_neg ht] at hbb
        exact hbs b hbb
    have h3 : (if t = Tgt.convolution
        then some (Nd.mk s t (ArgF.node m :: tail) md) else conv?) = none →
        ∃ x ∈ (chain m).dropLast, x.target = Tgt.convolution := by
      intro hnone
      by_cases ht : t = Tgt.convolution
      · rw [if_pos ht] at hnone
        exact absurd hnone (by simp)
      · rw [if_neg ht] at hnone
        obtain ⟨x, hx, hxt⟩ := hc hnone
        rw [hdrop] at hx
        rcases List.mem_cons.mp hx with hx | hx
        · subst hx
          exact absurd hxt ht
        · exact ⟨x, hx, hxt⟩
    have h4 : (if t = Tgt.nativeBatchNorm
        then some (Nd.mk s t (ArgF.node m :: tail) md) else bn?) = none →
        ∃ x ∈ (chain m).dropLast, x.target = Tgt.nativeBatchNorm := by
      intro hnone
      by_cases ht : t = Tgt.nativeBatchNorm
      · rw [if_pos ht] at hnone
        exact absurd hnone (by simp)
      · rw [if_neg ht] at hnone
        obtain ⟨x, hx, hxt⟩ := hb hnone
        rw [hdrop] at hx
        rcases List.mem_cons.mp hx with hx | hx
        · subst hx
          exact absurd hxt ht
        · exact ⟨x, hx, hxt⟩
    exact ih h1 h2 h3 h4
  | case3 conv? bn? s t md hnb =>
    intro hcs hbs hc hb
    have hdrop : (chain (Nd.mk s t [] md)).dropLast = [] := by
      rw [chain]
      · rfl
      · intro s1 t1 m rest md1 h
        simp at h
    rcases hco : conv? with _ | c
    · obtain ⟨x, hx, _⟩ := hc hco
      rw [hdrop] at hx
      simp at hx
    · rcases hbo : bn? with _ | b
      · obtain ⟨x, hx, _⟩ := hb hbo
        rw [hdrop] at hx
        simp at hx
      · exact (hnb c b hco hbo).elim
  | case4 conv? bn? s t md hnb head tail hhead =>
    intro hcs hbs hc hb
    have hdrop : (chain (Nd.mk s t (head :: tail) md)).dropLast = [] := by
      rw [chain]
      · rfl
      · intro s1 t1 m rest md1 h
        simp only [Nd.mk.injEq, List.cons.injEq] at h
        exact hhead m (h.2.2.1.1)
    rcases hco : conv? with _ | c
    · obtain ⟨x, hx, _⟩ := hc hco
      rw [hdrop] at hx
      simp at hx
    · rcases hbo : bn? with _ | b
      · obtain ⟨x, hx, _⟩ := hb hbo
        rw [hdrop] at hx
        simp at hx
      · exact (hnb c b hco hbo).elim

/-- Helper: the backward walk raises when some still-missing target never
occurs in the chain with its last element removed. -/
theorem findConvBn_error_aux (conv? bn? : Option Nd) (n : Nd) :
    ((conv? = none ∧ ∀ x ∈ (chain n).dropLast, ¬x.target = Tgt.convolution) ∨
     (bn? = none ∧ ∀ x ∈ (chain n).dropLast, ¬x.target = Tgt.nativeBatchNorm)) →
    ∃ e, findConvBn conv? bn? n = .error e := by
  induction conv?, bn?, n using findConvBn.induct with
  | case1 n c b =>
    rintro (⟨h, _⟩ | ⟨h, _⟩) <;> simp at h
  | case2 conv? bn? s t md hnb m tail n conv?2 bn?2 ih =>
    intro h
    have hchain : chain (Nd.mk s t (ArgF.node m :: tail) md) =
        Nd.mk s t (ArgF.node m :: tail) md :: chain m := by
      rw [chain]
    have hdrop : (chain (Nd.mk s t (ArgF.node m :: tail) md)).dropLast =
        Nd.mk s t (ArgF.node m :: tail) md :: (chain m).dropLast := by
      rw [hchain]
      rcases hcm : chain m with _ | ⟨y, ys⟩
      · exact absurd hcm (chain_ne_nil m)
      · simp
    have hstep : findConvBn conv? bn? (Nd.mk s t (ArgF.node m :: tail) md) =
        findConvBn
          (if t = Tgt.convolution then some (Nd.mk s t (ArgF.node m :: tail) md)
            else conv?)
          (if t = Tgt.nativeBatchNorm then some (Nd.mk s t (ArgF.node m :: tail) md)
            else bn?) m := by
      rw [findConvBn]
      exact hnb
    rw [hstep]
    rcases h with ⟨rfl, hall⟩ | ⟨rfl, hall⟩
    · have ht : ¬t = Tgt.convolution :=
        hall (Nd.mk s t (ArgF.node m :: tail) md)
          (by rw [hdrop]; exact List.mem_cons_self _ _)
      exact ih (Or.inl ⟨if_neg ht,
        fun x hx => hall x (by rw [hdrop]; exact List.mem_cons_of_mem _ hx)⟩)
    · have ht : ¬t = Tgt.nativeBatchNorm :=
        hall (Nd.mk s t (ArgF.node m :: tail) md)
          (by rw [hdrop]; exact List.mem_cons_self _ _)
      exact ih (Or.inr ⟨if_neg ht,
        fun x hx => hall x (by rw [hdrop]; exact List.mem_cons_of_mem _ hx)⟩)
  | case3 conv? bn? s t md hnb =>
    rintro (⟨rfl, _⟩ | ⟨rfl, _⟩)
    · refine ⟨.indexError, ?_⟩
      rw [findConvBn]
      rintro c b hcc hbb
      simp at hcc
    · refine ⟨.indexError, ?_⟩
      rw [findConvBn]
      rintro c b hcc hbb
      simp at hbb
  | case4 conv? bn? s t md hnb head tail hhead =>
    rintro (⟨rfl, _⟩ | ⟨rfl, _⟩)
    · refine ⟨.assertNodeArg, ?_⟩
      rw [findConvBn]
      · rintro c b hcc hbb
        simp at hcc
      · exact hhead
    · refine ⟨.assertNodeArg, ?_⟩
      rw [findConvBn]
      · rintro c b hcc hbb
        simp at hbb
      · exact hhead

/-- C7 (amended): the backward walk from the anchor terminates having
located the replacement convolution and batch-norm nodes whenever both
targets occur in the first-argument chain with its final element
removed (the walk's assertion also runs on the node at which the second
target is found); and whenever one of the two targets is missing from
that region, it terminates with an error rather than looping. -/
theorem backward_walk_terminates (anchor : Nd) :
    ((∃ x ∈ (chain anchor).dropLast, x.target = Tgt.convolution) →
      (∃ x ∈ (chain anchor).dropLast, x.target = Tgt.nativeBatchNorm) →
      ∃ c b, findConvBn none none anchor = .ok (c, b) ∧
        c.target = Tgt.convolution ∧ b.target = Tgt.nativeBatchNorm) ∧
    (((∀ x ∈ (chain anchor).dropLast, ¬x.target = Tgt.convolution) ∨
      (∀ x ∈ (chain anchor).dropLast, ¬x.target = Tgt.nativeBatchNorm)) →
      ∃ e, findConvBn none none anchor = .error e) := by
  constructor
  · intro h1 h2
    exact findConvBn_ok_aux none none anchor (by simp) (by simp)
      (fun _ => h1) (fun _ => h2)
  · intro h
    apply findConvBn_error_aux none none anchor
    rcases h with h | h
    · exact Or.inl ⟨rfl, h⟩
    · exact Or.inr ⟨rfl, h⟩

/-- C7 counterexample: on the backbone `getitem → bn → conv` where the
convolution node's first argument is a literal, the chain visited by the
walk contains both a convolution-targeted and a batch-norm-targeted node
before a non-node first argument is reached, yet the walk fails the
`assert isinstance(n.args[0], Node)` assertion instead of returning
them: the assertion runs on the convolution node in the same iteration
in which the convolution is recorded, before the loop condition is
re-checked. -/
theorem backward_walk_claim_counterexample :
    (∃ x ∈ chain giBad, x.target = Tgt.convolution) ∧
    (∃ x ∈ chain giBad, x.target = Tgt.nativeBatchNorm) ∧
    findConvBn none none giBad = .error Err.assertNodeArg := by
  refine ⟨⟨convBad, ?_, rfl⟩, ⟨bnBad, ?_, rfl⟩, rfl⟩
  · rw [show chain giBad = [giBad, bnBad, convBad] from rfl]
    simp
  · rw [show chain giBad = [giBad, bnBad, convBad] from rfl]
    simp

theorem backward_walk_terminates_witness :
    (∃ c b, findConvBn none none giW = .ok (c, b) ∧
      c.target = Tgt.convolution ∧ b.target = Tgt.nativeBatchNorm) ∧
    (∃ e, findConvBn none none giNoBn = .error e) := by
  constructor
  · refine (backward_walk_terminates giW).1 ⟨convW, ?_, rfl⟩ ⟨bnW, ?_, rfl⟩
    · rw [show (chain giW).dropLast = [giW, bnW, convW] from rfl]
      simp
    · rw [show (chain giW).dropLast = [giW, bnW, convW] from rfl]
      simp
  · refine (backward_walk_terminates giNoBn).2 (Or.inr ?_)
    intro x hx
    rw [show (chain giNoBn).dropLast = [giNoBn] from rfl] at hx
    simp only [List.mem_singleton] at hx
    subst hx
    decide

theorem replacement_metadata_copied_witness :
    ∃ c2 b2 g2,
      postProcessOne ⟨[giW], [("pb", none), ("pc", some origConvW),
        ("pn", some origBnW), ("pg", some origGiW)]⟩ = .ok (c2, b2, g2) ∧
      (∀ st k, copyStep st (k, none) = st) ∧
      (∀ k o l₁ l₂,
        ([("pb", none), ("pc", some origConvW), ("pn", some origBnW),
          ("pg", some origGiW)] : List (String × Option Nd)) =
            l₁ ++ (k, some o) :: l₂ →
        o.target = Tgt.convolution →
        noTargetPair Tgt.convolution l₁ = true →
        noTargetPair Tgt.convolution l₂ = true →
        c2.meta = o.meta) ∧
      (∀ k o l₁ l₂,
        ([("pb", none), ("pc", some origConvW), ("pn", some origBnW),
          ("pg", some origGiW)] : List (String × Option Nd)) =
            l₁ ++ (k, some o) :: l₂ →
        o.target = Tgt.nativeBatchNorm →
        noTargetPair Tgt.nativeBatchNorm l₁ = true →
        noTargetPair Tgt.nativeBatchNorm l₂ = true →
        b2.meta = o.meta) ∧
      (∀ k o l₁ l₂,
        ([("pb", none), ("pc", some origConvW), ("pn", some origBnW),
          ("pg", some origGiW)] : List (String × Option Nd)) =
            l₁ ++ (k, some o) :: l₂ →
        o.target = Tgt.getitem →
        noTargetPair Tgt.getitem l₁ = true →
        noTargetPair Tgt.getitem l₂ = true →
        g2.meta = o.meta) :=
  replacement_metadata_copied
    ⟨[giW], [("pb", none), ("pc", some origConvW), ("pn", some origBnW),
      ("pg", some origGiW)]⟩ giW convW bnW rfl rfl rfl

/-- Helper: a key absent from an association list looks up to nothing. -/
theorem dictGet_eq_none_of_not_mem (l : List (String × α)) (k : String)
    (h : k ∉ l.map (·.1)) : dictGet l k = none := by
  induction l with
  | nil => rfl
  | cons p rest ih =>
    simp only [List.map_cons, List.mem_cons] at h
    push_neg at h
    rw [dictGet, ih h.2]
    rw [if_neg (fun hh => h.1 hh.symm)]

/-- Helper: the scope-map loop is a map over the node list. -/
theorem nodeNameToScope_eq_map (nodes : List PNode) :
    nodeNameToScope nodes = nodes.map fun n => (n.name, currentScope n) := by
  have hgen : ∀ (l : List PNode) (acc : List (String × (String × String))),
      l.foldl (fun m n => m ++ [(n.name, currentScope n)]) acc =
        acc ++ l.map fun n => (n.name, currentScope n) := by
    intro l
    induction l with
    | nil => simp
    | cons p rest ih =>
      intro acc
      simp [ih]
  simpa using hgen nodes []

/-- Helper: with distinct node names, the scope map looks up each node to
its computed scope. -/
theorem dictGet_nodeNameToScope (nodes : List PNode) (n : PNode)
    (hnodup : (nodes.map PNode.name).Nodup) (hmem : n ∈ nodes) :
    dictGet (nodeNameToScope nodes) n.name = some (currentScope n) := by
  rw [nodeNameToScope_eq_map]
  induction nodes with
  | nil => simp at hmem
  | cons p rest ih =>
    simp only [List.map_cons, List.nodup_cons] at hnodup
    rcases List.mem_cons.mp hmem with rfl | hmem2
    · have habs : n.name ∉ (rest.map fun x => (x.name, currentScope x)).map (·.1) := by
        simpa using hnodup.1
      rw [List.map_cons, dictGet, dictGet_eq_none_of_not_mem _ _ habs,
        if_pos rfl]
    · have hrec := ih hnodup.2 hmem2
      rw [List.map_cons, dictGet, hrec]

/-- C9: in `prepare_pt2e`, every node of the host graph gets a scope map
entry; with distinct node names the entry of node `n` is its computed
scope, which is `(last dot-separated component of the last stack entry's
path, that entry's module type)` when the module stack is present and
non-empty, and `("", NoneType)` otherwise. -/
theorem scope_map_records_all (nodes : List PNode)
    (hnodup : (nodes.map PNode.name).Nodup) :
    (∀ n ∈ nodes, (dictGet (nodeNameToScope nodes) n.name).isSome = true) ∧
    (∀ n ∈ nodes, dictGet (nodeNameToScope nodes) n.name =
      some (currentScope n)) ∧
    (∀ (n : PNode) (l : List StackEntry) (hne : l ≠ []),
      n.nnModuleStack = some l →
      currentScope n =
        (((l.getLast hne).path.splitOn ".").getLastD "",
          (l.getLast hne).modType)) ∧
    (∀ n : PNode, n.nnModuleStack = none ∨ n.nnModuleStack = some [] →
      currentScope n = ("", "NoneType")) := by
  refine ⟨fun n hn => ?_, fun n hn => dictGet_nodeNameToScope nodes n hnodup hn,
    fun n l hne hstack => ?_, fun n hn => ?_⟩
  · rw [dictGet_nodeNameToScope nodes n hnodup hn]
    rfl
  · rcases l with _ | ⟨e, es⟩
    · exact absurd rfl hne
    · have hlast : (e :: es).getLastD e = (e :: es).getLast hne := by
        rw [List.getLastD_eq_getLast?, List.getLast?_eq_getLast _ hne]
        rfl
      simp only [currentScope, hstack]
      rw [hlast]
  · rcases hn with hn | hn <;> simp [currentScope, hn]

theorem scope_map_records_all_witness :
    dictGet (nodeNameToScope [pn1, pn2]) pn1.name =
      some (currentScope pn1) ∧
    currentScope pn2 = ("", "NoneType") :=
  ⟨(scope_map_records_all [pn1, pn2] (by decide)).2.1 pn1 (by simp),
    (scope_map_records_all [pn1, pn2] (by decide)).2.2.2 pn2 (Or.inl rfl)⟩
